import Mathlib

/-!
# Verification of the Genie-space configuration merge protocol

Shallow embedding of the configuration-merge code of this repository:

* `sort_serialized_space` (run_tests.py, lines 91-110): re-sorts every
  identifier-keyed list of a serialized-space document.
* `add_data_source`, `remove_data_source`, `replace_all_data_sources`
  (02_data_sources.py): the fetch-modify-submit operations on the
  `data_sources.tables` list.  Each is modelled as the pure transformation
  it applies between the fetched JSON document and the submitted one
  (`json.loads`/`json.dumps` round-trips are identities on the model).
* `api_request` (config.py): the HTTP dispatch wrapper, modelled over an
  abstract transport outcome, with `requests`' documented semantics of
  `raise_for_status` (HTTPError for 4xx/5xx, ConnectionError on transport
  failure).
* `gen_id` (config.py): `uuid.uuid4().hex`, modelled as a function of the
  128 random bits drawn by `os.urandom(16)`, with CPython's forcing of the
  version and variant bits.

Python dicts are modelled as association lists in insertion order (Python
dicts preserve insertion order; updating an existing key keeps its
position, inserting a new key appends it at the end).  Python exceptions
(`KeyError`, `AttributeError`, `TypeError`) and calls on branches whose
runtime type does not match the document schema are modelled as `none`:
every operation returns `Option Json` and is undefined exactly where the
Python code raises (or, in a few corners noted inline, where it leaves the
schema; no claim below depends on those corners).
-/

/-! ## Definitions -/

/-- A JSON value.  Objects are association lists in insertion order,
mirroring Python dicts. -/
inductive Json where
  | null
  | bool (b : Bool)
  | num (n : Int)
  | str (s : String)
  | arr (xs : List Json)
  | obj (fields : List (String × Json))

/-- Python `d[k]` / `k in d` on a dict: the first (in a real dict the
only) binding of `k`. -/
def jlookup : List (String × Json) → String → Option Json
  | [], _ => none
  | (k, v) :: fs, key => if k = key then some v else jlookup fs key

/-- Python `d[k] = v` on a dict: replace the value at an existing key in
place, or append a fresh binding at the end. -/
def jset : List (String × Json) → String → Json → List (String × Json)
  | [], key, v => [(key, v)]
  | (k, w) :: fs, key, v =>
    if k = key then (key, v) :: fs else (k, w) :: jset fs key v

/-- Python `d.setdefault(k, v)`: returns the (possibly extended) dict and
the value now stored at `k`. -/
def setdefault (fs : List (String × Json)) (k : String) (v : Json) :
    List (String × Json) × Json :=
  match jlookup fs k with
  | some w => (fs, w)
  | none => (fs ++ [(k, v)], v)

/-- The sort key of a `data_sources.tables` entry: `lambda t: t["identifier"]`
(run_tests.py line 94, 02_data_sources.py lines 99-101).  `none` when the
entry is not an object, lacks the key (Python `KeyError`), or its
identifier is not a string (a corner where Python would hand a non-string
key to `sorted`; no comparison of such keys occurs in this development). -/
def tableKey : Json → Option String
  | .obj tf =>
    match jlookup tf "identifier" with
    | some (.str s) => some s
    | _ => none
  | _ => none

/-- The raw `identifier` member of a tables entry, `t["identifier"]`. -/
def tableIdent : Json → Option Json
  | .obj tf => jlookup tf "identifier"
  | _ => none

/-- The sort key of an id-keyed entry: `lambda x: x.get("id", "")`
(run_tests.py lines 97-107).  A missing `id` defaults to the empty string;
a non-object entry (no `.get`) or a non-string `id` is undefined. -/
def idKey : Json → Option String
  | .obj xf =>
    match jlookup xf "id" with
    | some (.str s) => some s
    | none => some ""
    | some _ => none
  | _ => none

/-- Lexicographic `≤` on character lists by code point: Python's string
comparison. -/
def strLeAux : List Char → List Char → Bool
  | [], _ => true
  | _ :: _, [] => false
  | a :: as, b :: bs =>
    if a.toNat < b.toNat then true
    else if b.toNat < a.toNat then false
    else strLeAux as bs

/-- Python `s <= t` on strings: lexicographic by code point. -/
def strLe (s t : String) : Bool := strLeAux s.data t.data

/-- The ordering `sorted` uses: comparison of the extracted string keys
(defaulted for the sake of totality; only applied where keys are defined). -/
def keyLe (key : Json → Option String) (a b : Json) : Prop :=
  strLe ((key a).getD "") ((key b).getD "") = true

instance (key : Json → Option String) : DecidableRel (keyLe key) :=
  fun _ _ => inferInstanceAs (Decidable (_ = true))

instance (key : Json → Option String) : IsTotal Json (keyLe key) := by
  constructor
  intro a b
  unfold keyLe strLe
  generalize ((key a).getD "").data = as
  generalize ((key b).getD "").data = bs
  induction as generalizing bs with
  | nil => exact .inl rfl
  | cons x xs ih =>
    cases bs with
    | nil => exact .inr rfl
    | cons y ys =>
      simp only [strLeAux]
      rcases Nat.lt_trichotomy x.toNat y.toNat with h | h | h
      · left
        simp [h]
      · have h1 : ¬ x.toNat < y.toNat := by omega
        have h2 : ¬ y.toNat < x.toNat := by omega
        simpa [h1, h2] using ih ys
      · right
        simp [h]

instance (key : Json → Option String) : IsTrans Json (keyLe key) := by
  constructor
  intro a b c
  unfold keyLe strLe
  generalize ((key a).getD "").data = as
  generalize ((key b).getD "").data = bs
  generalize ((key c).getD "").data = cs
  induction as generalizing bs cs with
  | nil =>
    intro _ _
    rfl
  | cons x xs ih =>
    intro hab hbc
    cases bs with
    | nil => simp [strLeAux] at hab
    | cons y ys =>
      cases cs with
      | nil => simp [strLeAux] at hbc
      | cons z zs =>
        simp only [strLeAux] at hab hbc ⊢
        split at hab
        case isTrue h1 =>
          split at hbc
          case isTrue h2 =>
            have h : x.toNat < z.toNat := by omega
            simp [h]
          case isFalse h2 =>
            split at hbc
            case isTrue h3 => simp at hbc
            case isFalse h3 =>
              have h : x.toNat < z.toNat := by omega
              simp [h]
        case isFalse h1 =>
          split at hab
          case isTrue h3 => simp at hab
          case isFalse h3 =>
            split at hbc
            case isTrue h2 =>
              have h : x.toNat < z.toNat := by omega
              simp [h]
            case isFalse h2 =>
              split at hbc
              case isTrue h4 => simp at hbc
              case isFalse h4 =>
                have h5 : ¬ x.toNat < z.toNat := by omega
                have h6 : ¬ z.toNat < x.toNat := by omega
                simp only [if_neg h5, if_neg h6]
                exact ih ys zs hab hbc

/-- Python `sorted(xs, key=...)`: applies the key to every element (raising
where the key raises), then sorts stably.  `List.insertionSort` is a stable
sort, so on defined inputs it returns exactly the list CPython's stable
`sorted` returns. -/
def sortJ (key : Json → Option String) (xs : List Json) : Option (List Json) :=
  if xs.all fun x => (key x).isSome then
    some (List.insertionSort (keyLe key) xs)
  else none

/-- Python `sorted(tables, key=lambda t: t["identifier"])`. -/
def sortTables : List Json → Option (List Json) := sortJ tableKey

/-- Python `sorted(items, key=lambda x: x.get("id", ""))`. -/
def sortById : List Json → Option (List Json) := sortJ idKey

/-- Pure navigation to the value at a key path (objects all the way down). -/
def pathLookup : List String → Json → Option Json
  | [], d => some d
  | k :: ks, .obj fs => (jlookup fs k).bind (pathLookup ks)
  | _ :: _, _ => none

/-- One sorting step of `sort_serialized_space`: navigate to the list at
`path` and replace it by its sorted image.  A missing key anywhere on the
path skips the step (`if "tables" in ...` / `.get(..., {})` defaulting);
`skipEmpty` models the `if eq:` truthiness guards that skip empty lists;
a present branch of the wrong type is undefined. -/
def updAtPath (f : List Json → Option (List Json)) (skipEmpty : Bool) :
    List String → Json → Option Json
  | [], d =>
    match d with
    | .arr xs =>
      if skipEmpty && xs.isEmpty then some (.arr xs)
      else (f xs).map .arr
    | _ => none
  | k :: ks, d =>
    match d with
    | .obj fs =>
      match jlookup fs k with
      | none => some (.obj fs)
      | some v => (updAtPath f skipEmpty ks v).map fun v' => .obj (jset fs k v')
    | _ => none

/-- One entry of the sort-key table: which list, which key, and whether the
source guards it behind a truthiness test. -/
structure SortStep where
  key : Json → Option String
  skipEmpty : Bool
  path : List String

/-- Run one entry of the sort-key table over a document. -/
def runStep (s : SortStep) (d : Json) : Option Json :=
  updAtPath (sortJ s.key) s.skipEmpty s.path d

/-- The sort-key table of `sort_serialized_space` (run_tests.py lines
91-110), in the order the source applies it: `data_sources.tables` by
`identifier`, then the three `sql_snippets` lists, then
`example_question_sqls`, `text_instructions` and `config.sample_questions`
by `id` (the latter three behind `if eq:` style truthiness guards). -/
def sortSteps : List SortStep :=
  [⟨tableKey, false, ["data_sources", "tables"]⟩,
   ⟨idKey, false, ["instructions", "sql_snippets", "measures"]⟩,
   ⟨idKey, false, ["instructions", "sql_snippets", "filters"]⟩,
   ⟨idKey, false, ["instructions", "sql_snippets", "expressions"]⟩,
   ⟨idKey, true, ["instructions", "example_question_sqls"]⟩,
   ⟨idKey, true, ["instructions", "text_instructions"]⟩,
   ⟨idKey, true, ["config", "sample_questions"]⟩]

/-- Run a list of sorting steps in order, stopping at the first failure. -/
def runSteps (L : List SortStep) (d : Json) : Option Json :=
  L.foldlM (fun x s => runStep s x) d

/-- Model of `sort_serialized_space(config)` (run_tests.py lines 91-110):
apply the seven sorting steps in source order.  The Python function
mutates `config` in place and returns it; the model threads the document
through the steps. -/
def sort_serialized_space (d : Json) : Option Json :=
  runSteps sortSteps d

/-- The fresh tables entry `{"identifier": table_identifier}`. -/
def newTable (tid : String) : Json := .obj [("identifier", .str tid)]

/-- Model of `add_data_source(space_id, table_identifier)`
(02_data_sources.py lines 89-107), as the transformation from the fetched
config to the submitted one:
`setdefault("data_sources", {}).setdefault("tables", [])`, append the new
entry, re-sort by identifier, write the sorted list back. -/
def add_data_source (tid : String) (config : Json) : Option Json :=
  match config with
  | .obj fs =>
    match setdefault fs "data_sources" (.obj []) with
    | (fs1, .obj dsf) =>
      match setdefault dsf "tables" (.arr []) with
      | (dsf1, .arr xs) =>
        (sortTables (xs ++ [newTable tid])).map fun ys =>
          .obj (jset fs1 "data_sources" (.obj (jset dsf1 "tables" (.arr ys))))
      | _ => none
    | _ => none
  | _ => none

/-- Python `t["identifier"] != table_identifier` is false (the entry is
dropped) exactly when the identifier is the string `tid`. -/
def jsonEqStr (v : Json) (s : String) : Bool :=
  match v with
  | .str t => t == s
  | _ => false

/-- Whether a tables entry matches the identifier being removed. -/
def matchesIdent (tid : String) (t : Json) : Bool :=
  match tableIdent t with
  | some v => jsonEqStr v tid
  | none => false

/-- The list comprehension of `remove_data_source`:
`[t for t in tables if t["identifier"] != table_identifier]`.  Raises
(`none`) when an entry is not an object or lacks the `identifier` key. -/
def filterTables (tid : String) : List Json → Option (List Json)
  | [] => some []
  | t :: ts =>
    match tableIdent t with
    | some v =>
      (filterTables tid ts).map fun ys =>
        if jsonEqStr v tid then ys else t :: ys
    | none => none

/-- Model of `remove_data_source(space_id, table_identifier)`
(02_data_sources.py lines 110-127): the comprehension source defaults
missing branches via `.get(..., {})` / `.get(..., [])`, but the assignment
target `config["data_sources"]["tables"]` indexes `"data_sources"`
unconditionally, so a document without it raises `KeyError` (`none`). -/
def remove_data_source (tid : String) (config : Json) : Option Json :=
  match config with
  | .obj fs =>
    match (jlookup fs "data_sources").getD (.obj []) with
    | .obj dsf =>
      match (jlookup dsf "tables").getD (.arr []) with
      | .arr xs =>
        (filterTables tid xs).bind fun ys =>
          match jlookup fs "data_sources" with
          | some (.obj dsf2) =>
            some (.obj (jset fs "data_sources" (.obj (jset dsf2 "tables" (.arr ys)))))
          | _ => none
      | _ => none
    | _ => none
  | _ => none

/-- Model of `replace_all_data_sources(space_id, table_identifiers)`
(02_data_sources.py lines 130-147): build fresh entries, sort them by
identifier, and overwrite `config["data_sources"]` wholesale. -/
def replace_all_data_sources (tids : List String) (config : Json) : Option Json :=
  match config with
  | .obj fs =>
    (sortTables (tids.map newTable)).map fun ys =>
      .obj (jset fs "data_sources" (.obj [("tables", .arr ys)]))
  | _ => none

/-- Two key paths that part ways at some position: an update below one
cannot be seen from below the other. -/
inductive Diverge : List String → List String → Prop
  | head {a b : String} (p q : List String) (h : a ≠ b) : Diverge (a :: p) (b :: q)
  | tail {a : String} {p q : List String} (h : Diverge p q) : Diverge (a :: p) (a :: q)

/-- Decide `Diverge` by walking the two paths together. -/
def Diverge.dec : (p q : List String) → Decidable (Diverge p q)
  | [], _ => isFalse fun h => nomatch h
  | _ :: _, [] => isFalse fun h => nomatch h
  | a :: p, b :: q =>
    if hab : a = b then
      match Diverge.dec p q with
      | isTrue h => isTrue (by subst hab; exact Diverge.tail h)
      | isFalse h =>
        isFalse (by
          subst hab
          intro hd
          cases hd with
          | head _ _ hne => exact hne rfl
          | tail h2 => exact h h2)
    else isTrue (Diverge.head p q hab)

instance (p q : List String) : Decidable (Diverge p q) := Diverge.dec p q

/-- Predicate `sortedAt key p d`: if the document has a list at path `p`,
it is non-decreasing under the declared key; trivially true when the path
is absent. -/
def sortedAt (key : Json → Option String) (p : List String) (d : Json) : Prop :=
  match pathLookup p d with
  | some (.arr xs) => List.Pairwise (keyLe key) xs
  | _ => True

instance (key : Json → Option String) (p : List String) (d : Json) :
    Decidable (sortedAt key p d) := by
  unfold sortedAt
  split
  · exact List.instDecidablePairwise _
  · exact inferInstanceAs (Decidable True)

/-- The sort invariant of the spec: every list named in the sort-key table
that is present in the document is non-decreasing under its declared key. -/
def SortInv (d : Json) : Prop := ∀ s ∈ sortSteps, sortedAt s.key s.path d

instance (d : Json) : Decidable (SortInv d) :=
  List.decidableBAll _ sortSteps

/-- What the network did for one `requests.request` call: either the call
failed outright (a `ConnectionError` from `requests`), or a response with a
status code and a body came back. -/
inductive TransportOutcome where
  | failure
  | response (status : Nat) (body : Json)

/-- The exception a caller of `api_request` observes: `requests` raises
`ConnectionError` on transport failure, and `raise_for_status` raises
`HTTPError` carrying the status code for every 4xx/5xx response. -/
inductive SurfacedError where
  | connectionError
  | httpError (status : Nat)
deriving DecidableEq

/-- The five error kinds of the spec. -/
inductive ErrorKind where
  | notFound
  | unauthorized
  | validationError
  | conflict
  | transportError
deriving DecidableEq

/-- Model of `api_request(method, path, ...)` (config.py lines 44-49):
performs the call and `resp.raise_for_status()`; no exception is caught,
so a transport failure or HTTP error status propagates to the caller and
otherwise the body is returned.  (`raise_for_status` raises exactly for
statuses in [400, 600), per `requests`' documented semantics.) -/
def api_request (o : TransportOutcome) : Except SurfacedError Json :=
  match o with
  | .failure => .error .connectionError
  | .response status body =>
    if 400 ≤ status ∧ status < 600 then .error (.httpError status)
    else .ok body

/-- Modelled from the spec: the classification of surfaced failures into
the five kinds (`NotFound` 404, `Unauthorized` 401/403, `ValidationError`
400, `Conflict` 409, `TransportError` for the failed call itself).  The
source carries the status code on the raised exception; this map names the
kind the spec assigns to each failure. -/
def errorKind : SurfacedError → Option ErrorKind
  | .connectionError => some .transportError
  | .httpError 400 => some .validationError
  | .httpError 401 => some .unauthorized
  | .httpError 403 => some .unauthorized
  | .httpError 404 => some .notFound
  | .httpError 409 => some .conflict
  | .httpError _ => none

/-- The fetch-transform-submit cycle shared by `add_data_source`,
`remove_data_source` and `replace_all_data_sources` (02_data_sources.py):
GET the config via `api_request`, transform it locally, PATCH it back via
`api_request`, with no exception handling anywhere on the path.  `fetched`
is the transport's answer to the GET, `submitted` its answer to the PATCH;
the value is `none` where the local transform raises. -/
def mergePipeline (transform : Json → Option Json)
    (fetched submitted : TransportOutcome) :
    Option (Except SurfacedError Json) :=
  match api_request fetched with
  | .error e => some (.error e)
  | .ok cfg => (transform cfg).map fun _ => api_request submitted

/-- One lowercase hexadecimal digit as CPython's `%x` formatting produces
it: `0`-`9` then `a`-`f`. -/
def hexChar (d : Nat) : Char :=
  if d < 10 then Char.ofNat (48 + d) else Char.ofNat (87 + d)

/-- The sixteen characters a lowercase hexadecimal string is made of. -/
def hexAlphabet : List Char := "0123456789abcdef".data

/-- The `k` base-16 digits of `n`, least significant first. -/
def hexDigitsRev : Nat → Nat → List Nat
  | 0, _ => []
  | k + 1, n => n % 16 :: hexDigitsRev k (n / 16)

/-- Model of `uuid.UUID.hex`: the 32 lowercase hexadecimal digits of the
128-bit integer, most significant first (zero-padded). -/
def hex32 (n : Nat) : String := ⟨((hexDigitsRev 32 n).reverse).map hexChar⟩

/-- The 128-bit integer of `uuid.uuid4()` as a function of the 16 random
bytes drawn from `os.urandom`: CPython forces the version field (bits
76-79) to `0100` and the variant field (bits 62-63) to `10`, leaving the
other 122 bits of `r` unchanged.  The bit masking is expressed
arithmetically; the literals are 2^62, 2^64, 2^76 and 2^80. -/
def uuid4int (r : Nat) : Nat :=
  r % 4611686018427387904
  + 2 * 4611686018427387904
  + (r / 18446744073709551616 % 4096) * 18446744073709551616
  + 4 * 75557863725914323419136
  + r / 1208925819614629174706176 * 1208925819614629174706176

/-- Model of `gen_id()` (config.py lines 66-69): `uuid.uuid4().hex`, as a
function of the 128 random bits the call consumes.  It is a pure function
of its random input: no state is shared across calls. -/
def gen_id (r : Nat) : String := hex32 (uuid4int r)

/-- The version/variant fields already hold the values `uuid4` forces. -/
def vvOk (r : Nat) : Prop :=
  r / 75557863725914323419136 % 16 = 4 ∧ r / 4611686018427387904 % 4 = 2

instance (r : Nat) : Decidable (vvOk r) :=
  inferInstanceAs (Decidable (_ ∧ _))

/-- A document whose tables list is out of order. -/
def docBA : Json :=
  .obj [("data_sources", .obj [("tables", .arr [newTable "b", newTable "a"])])]

/-- The same document with its tables list sorted. -/
def docAB : Json :=
  .obj [("data_sources", .obj [("tables", .arr [newTable "a", newTable "b"])])]

/-- A document whose measures list was appended in the order `b` then `a`. -/
def docMeasBA : Json :=
  .obj [("instructions", .obj [("sql_snippets", .obj [("measures",
    .arr [.obj [("id", .str "b")], .obj [("id", .str "a")]])])])]

/-- The same document after normalization: measures ordered `a`, `b`. -/
def docMeasAB : Json :=
  .obj [("instructions", .obj [("sql_snippets", .obj [("measures",
    .arr [.obj [("id", .str "a")], .obj [("id", .str "b")]])])])]

/-- A document with a `version` field and a `metric_views` branch alongside
an unsorted tables list. -/
def docV : Json :=
  .obj [("version", .num 2),
    ("data_sources", .obj [("metric_views", .arr [newTable "m"]),
      ("tables", .arr [newTable "b", newTable "a"])])]

/-- The document `docV` after normalization: only the tables list changed,
in place. -/
def docV2 : Json :=
  .obj [("version", .num 2),
    ("data_sources", .obj [("metric_views", .arr [newTable "m"]),
      ("tables", .arr [newTable "a", newTable "b"])])]

/-! ## Theorems -/

theorem jlookup_jset_self (fs : List (String × Json)) (k : String) (v : Json) :
    jlookup (jset fs k v) k = some v := by
  induction fs with
  | nil => simp [jset, jlookup]
  | cons kv fs ih =>
    obtain ⟨k', w⟩ := kv
    by_cases h : k' = k
    · simp [jset, h, jlookup]
    · simp [jset, h, jlookup, ih]

theorem jlookup_jset_ne (fs : List (String × Json)) {k k' : String} (v : Json)
    (h : k ≠ k') : jlookup (jset fs k v) k' = jlookup fs k' := by
  induction fs with
  | nil => simp [jset, jlookup, h]
  | cons kv fs ih =>
    obtain ⟨k'', w⟩ := kv
    by_cases h2 : k'' = k
    · subst h2
      simp [jset, jlookup, h]
    · simp [jset, h2, jlookup, ih]

theorem jset_jset_same (fs : List (String × Json)) (k : String) (v w : Json) :
    jset (jset fs k v) k w = jset fs k w := by
  induction fs with
  | nil => simp [jset]
  | cons kv fs ih =>
    obtain ⟨k', u⟩ := kv
    by_cases h : k' = k
    · simp [jset, h]
    · simp [jset, h, ih]

theorem jset_of_jlookup {fs : List (String × Json)} {k : String} {v : Json}
    (h : jlookup fs k = some v) : jset fs k v = fs := by
  induction fs with
  | nil => simp [jlookup] at h
  | cons kv fs ih =>
    obtain ⟨k', w⟩ := kv
    by_cases h2 : k' = k
    · subst h2
      simp [jlookup] at h
      simp [jset, h]
    · simp [jlookup, h2] at h
      simp [jset, h2, ih h]

theorem jlookup_of_jset_eq {fs : List (String × Json)} {k : String} {v : Json}
    (h : jset fs k v = fs) : jlookup fs k = some v := by
  conv_lhs => rw [← h]
  exact jlookup_jset_self fs k v

theorem jlookup_append_ne (fs : List (String × Json)) {k k' : String} (v : Json)
    (h : k ≠ k') : jlookup (fs ++ [(k, v)]) k' = jlookup fs k' := by
  induction fs with
  | nil => simp [jlookup, h]
  | cons kv fs ih =>
    obtain ⟨k'', w⟩ := kv
    by_cases h2 : k'' = k'
    · simp [jlookup, h2]
    · simp [jlookup, h2, ih]

theorem sortJ_perm {key : Json → Option String} {xs ys : List Json}
    (h : sortJ key xs = some ys) : ys.Perm xs := by
  unfold sortJ at h
  split at h
  · cases h
    exact List.perm_insertionSort _ _
  · cases h

theorem sortJ_pairwise {key : Json → Option String} {xs ys : List Json}
    (h : sortJ key xs = some ys) : List.Pairwise (keyLe key) ys := by
  unfold sortJ at h
  split at h
  · cases h
    exact List.sorted_insertionSort _ _
  · cases h

theorem sortJ_isEmpty {key : Json → Option String} {xs ys : List Json}
    (h : sortJ key xs = some ys) : ys.isEmpty = xs.isEmpty := by
  have hl : ys.length = xs.length := (sortJ_perm h).length_eq
  cases xs with
  | nil => cases ys <;> simp_all
  | cons x xs => cases ys <;> simp_all

theorem sortJ_of_all {key : Json → Option String} {xs : List Json}
    (h : xs.all fun x => (key x).isSome) :
    sortJ key xs = some (List.insertionSort (keyLe key) xs) := by
  unfold sortJ
  rw [if_pos h]

theorem sortJ_fix {key : Json → Option String} {xs ys : List Json}
    (h : sortJ key xs = some ys) : sortJ key ys = some ys := by
  have hperm := sortJ_perm h
  unfold sortJ at h
  split at h
  case isTrue hall =>
    cases h
    have hall2 : (List.insertionSort (keyLe key) xs).all fun x => (key x).isSome := by
      rw [List.all_eq_true] at hall ⊢
      intro x hx
      exact hall x (hperm.mem_iff.mp hx)
    rw [sortJ_of_all hall2,
      List.Sorted.insertionSort_eq (List.sorted_insertionSort _ _)]
  case isFalse => cases h

theorem sortJ_sorted_self {key : Json → Option String} {xs : List Json}
    (hall : xs.all fun x => (key x).isSome)
    (hsort : List.Pairwise (keyLe key) xs) : sortJ key xs = some xs := by
  rw [sortJ_of_all hall, List.Sorted.insertionSort_eq hsort]

theorem Diverge.symm {p q : List String} (h : Diverge p q) : Diverge q p := by
  induction h with
  | head p q h => exact .head q p (Ne.symm h)
  | tail _ ih => exact .tail ih

/-- Running a step twice is the same as running it once: the step is a
closure operator on the documents where it is defined. -/
theorem updAtPath_fix {f : List Json → Option (List Json)} {g : Bool}
    (hfix : ∀ xs ys, f xs = some ys → f ys = some ys)
    (hemp : ∀ xs ys, f xs = some ys → ys.isEmpty = xs.isEmpty) :
    ∀ {p : List String} {d e : Json}, updAtPath f g p d = some e →
      updAtPath f g p e = some e := by
  intro p
  induction p with
  | nil =>
    intro d e h
    cases d with
    | arr xs =>
      simp only [updAtPath] at h
      split at h
      case isTrue hc =>
        cases h
        simp only [updAtPath, if_pos hc]
      case isFalse hc =>
        rcases Option.map_eq_some'.mp h with ⟨ys, hys, rfl⟩
        have hc2 : ¬(g && ys.isEmpty) = true := by
          rw [hemp xs ys hys]; exact hc
        simp only [updAtPath, if_neg hc2, hfix xs ys hys, Option.map_some']
    | null => simp [updAtPath] at h
    | bool b => simp [updAtPath] at h
    | num n => simp [updAtPath] at h
    | str s => simp [updAtPath] at h
    | obj fs => simp [updAtPath] at h
  | cons k ks ih =>
    intro d e h
    cases d with
    | obj fs =>
      simp only [updAtPath] at h
      cases hl : jlookup fs k with
      | none =>
        simp only [hl] at h
        cases h
        simp only [updAtPath, hl]
      | some v =>
        simp only [hl] at h
        rcases Option.map_eq_some'.mp h with ⟨v', hv', rfl⟩
        simp only [updAtPath, jlookup_jset_self, ih hv', Option.map_some',
          jset_jset_same]
    | null => simp [updAtPath] at h
    | bool b => simp [updAtPath] at h
    | num n => simp [updAtPath] at h
    | str s => simp [updAtPath] at h
    | arr xs => simp [updAtPath] at h

/-- A step run below key `b` of an object leaves every other key's value
untouched. -/
theorem updAtPath_obj_shape {f : List Json → Option (List Json)} {g : Bool}
    {b : String} {q : List String} {fs : List (String × Json)} {e : Json}
    (h : updAtPath f g (b :: q) (.obj fs) = some e) :
    ∃ fs', e = .obj fs' ∧ ∀ a, a ≠ b → jlookup fs' a = jlookup fs a := by
  simp only [updAtPath] at h
  cases hl : jlookup fs b with
  | none =>
    simp only [hl] at h
    cases h
    exact ⟨fs, rfl, fun a _ => rfl⟩
  | some v =>
    simp only [hl] at h
    rcases Option.map_eq_some'.mp h with ⟨v', _, rfl⟩
    exact ⟨jset fs b v', rfl, fun a ha => jlookup_jset_ne fs v' (Ne.symm ha)⟩

/-- A step run below a diverging path does not change what is read below
this one. -/
theorem updAtPath_frame {f : List Json → Option (List Json)} {g : Bool} :
    ∀ {p q : List String} {d e : Json}, Diverge p q →
      updAtPath f g q d = some e → pathLookup p e = pathLookup p d := by
  intro p q d e hdiv
  induction hdiv generalizing d e with
  | head p' q' hne =>
    intro h
    cases d with
    | obj fs =>
      rcases updAtPath_obj_shape h with ⟨fs', rfl, hkeep⟩
      simp only [pathLookup, hkeep _ hne]
    | null => simp [updAtPath] at h
    | bool b => simp [updAtPath] at h
    | num n => simp [updAtPath] at h
    | str s => simp [updAtPath] at h
    | arr xs => simp [updAtPath] at h
  | tail hdiv ih =>
    intro h
    cases d with
    | obj fs =>
      simp only [updAtPath] at h
      rename_i a p' q'
      cases hl : jlookup fs a with
      | none =>
        simp only [hl] at h
        cases h
        rfl
      | some v =>
        simp only [hl] at h
        rcases Option.map_eq_some'.mp h with ⟨v', hv', rfl⟩
        simp only [pathLookup, jlookup_jset_self, hl]
        simp [ih hv']
    | null => simp [updAtPath] at h
    | bool b => simp [updAtPath] at h
    | num n => simp [updAtPath] at h
    | str s => simp [updAtPath] at h
    | arr xs => simp [updAtPath] at h

/-- Extract, from a document fixed by a step, that the value below the
first key of the path is itself fixed by the remaining path. -/
theorem updAtPath_fix_inner {f : List Json → Option (List Json)} {g : Bool}
    {a : String} {p : List String} {fs : List (String × Json)} {v : Json}
    (h : updAtPath f g (a :: p) (.obj fs) = some (.obj fs))
    (hl : jlookup fs a = some v) : updAtPath f g p v = some v := by
  simp only [updAtPath, hl] at h
  rcases Option.map_eq_some'.mp h with ⟨v', hv', heq⟩
  have hset : jset fs a v' = fs := by
    injection heq
  have : jlookup fs a = some v' := jlookup_of_jset_eq hset
  rw [this] at hl
  cases hl
  exact hv'

/-- Being a fixed point of a step survives running any step at a diverging
path. -/
theorem updAtPath_fix_frame {f1 f2 : List Json → Option (List Json)}
    {g1 g2 : Bool} :
    ∀ {p q : List String} {x y : Json}, Diverge p q →
      updAtPath f1 g1 p x = some x → updAtPath f2 g2 q x = some y →
      updAtPath f1 g1 p y = some y := by
  intro p q x y hdiv
  induction hdiv generalizing x y with
  | head p' q' hne =>
    intro hfx h
    cases x with
    | obj fs =>
      rcases updAtPath_obj_shape h with ⟨fs', rfl, hkeep⟩
      rename_i a b
      cases hl : jlookup fs a with
      | none =>
        simp only [updAtPath, hkeep a hne, hl]
      | some v =>
        have hv : updAtPath f1 g1 p' v = some v := updAtPath_fix_inner hfx hl
        simp only [updAtPath, hkeep a hne, hl, hv, Option.map_some']
        rw [jset_of_jlookup ((hkeep a hne).trans hl)]
    | null => simp [updAtPath] at h
    | bool b => simp [updAtPath] at h
    | num n => simp [updAtPath] at h
    | str s => simp [updAtPath] at h
    | arr xs => simp [updAtPath] at h
  | tail hdiv ih =>
    intro hfx h
    cases x with
    | obj fs =>
      rename_i a p' q'
      simp only [updAtPath] at h
      cases hl : jlookup fs a with
      | none =>
        simp only [hl] at h
        cases h
        exact hfx
      | some v =>
        simp only [hl] at h
        rcases Option.map_eq_some'.mp h with ⟨w, hw, rfl⟩
        have hv : updAtPath f1 g1 p' v = some v := updAtPath_fix_inner hfx hl
        have hw2 : updAtPath f1 g1 p' w = some w := ih hv hw
        simp only [updAtPath, jlookup_jset_self, hw2, Option.map_some',
          jset_jset_same]
    | null => simp [updAtPath] at h
    | bool b => simp [updAtPath] at h
    | num n => simp [updAtPath] at h
    | str s => simp [updAtPath] at h
    | arr xs => simp [updAtPath] at h

/-- What one step does to the list at its own path: either the path is
absent (on both sides), or the list was empty and skipped, or it was
replaced by its image under `f`. -/
theorem updAtPath_pathLookup {f : List Json → Option (List Json)} {g : Bool} :
    ∀ {p : List String} {d e : Json}, updAtPath f g p d = some e →
      (pathLookup p d = none ∧ pathLookup p e = none) ∨
      (∃ xs, pathLookup p d = some (.arr xs) ∧ pathLookup p e = some (.arr xs) ∧
        xs = []) ∨
      (∃ xs ys, pathLookup p d = some (.arr xs) ∧ f xs = some ys ∧
        pathLookup p e = some (.arr ys)) := by
  intro p
  induction p with
  | nil =>
    intro d e h
    cases d with
    | arr xs =>
      simp only [updAtPath] at h
      split at h
      case isTrue hc =>
        cases h
        simp only [Bool.and_eq_true] at hc
        have hxs : xs = [] := by
          cases xs with
          | nil => rfl
          | cons x xs => simp [List.isEmpty] at hc
        right; left
        exact ⟨xs, rfl, rfl, hxs⟩
      case isFalse hc =>
        rcases Option.map_eq_some'.mp h with ⟨ys, hys, rfl⟩
        right; right
        exact ⟨xs, ys, rfl, hys, rfl⟩
    | null => simp [updAtPath] at h
    | bool b => simp [updAtPath] at h
    | num n => simp [updAtPath] at h
    | str s => simp [updAtPath] at h
    | obj fs => simp [updAtPath] at h
  | cons k ks ih =>
    intro d e h
    cases d with
    | obj fs =>
      simp only [updAtPath] at h
      cases hl : jlookup fs k with
      | none =>
        simp only [hl] at h
        cases h
        left
        constructor <;> simp [pathLookup, hl]
      | some v =>
        simp only [hl] at h
        rcases Option.map_eq_some'.mp h with ⟨v', hv', rfl⟩
        have e1 : pathLookup (k :: ks) (Json.obj fs) = pathLookup ks v := by
          simp [pathLookup, hl]
        have e2 : pathLookup (k :: ks) (Json.obj (jset fs k v')) =
            pathLookup ks v' := by
          simp [pathLookup, jlookup_jset_self]
        rw [e1, e2]
        exact ih hv'
    | null => simp [updAtPath] at h
    | bool b => simp [updAtPath] at h
    | num n => simp [updAtPath] at h
    | str s => simp [updAtPath] at h
    | arr xs => simp [updAtPath] at h

theorem runSteps_nil (d : Json) : runSteps [] d = some d := rfl

theorem runSteps_cons (s : SortStep) (L : List SortStep) (d : Json) :
    runSteps (s :: L) d = (runStep s d).bind (runSteps L) := rfl

theorem runStep_fix {s : SortStep} {x y : Json} (h : runStep s x = some y) :
    runStep s y = some y :=
  updAtPath_fix (fun _ _ hh => sortJ_fix hh) (fun _ _ hh => sortJ_isEmpty hh) h

theorem runStep_frame {p : List String} {s : SortStep} {x y : Json}
    (hd : Diverge p s.path) (h : runStep s x = some y) :
    pathLookup p y = pathLookup p x :=
  updAtPath_frame hd h

theorem runStep_fix_frame {s t : SortStep} {x y : Json}
    (hd : Diverge s.path t.path) (hfx : runStep s x = some x)
    (h : runStep t x = some y) : runStep s y = some y :=
  updAtPath_fix_frame hd hfx h

theorem runSteps_frame :
    ∀ {L : List SortStep} {p : List String} {x y : Json},
      (∀ t ∈ L, Diverge p t.path) → runSteps L x = some y →
      pathLookup p y = pathLookup p x := by
  intro L
  induction L with
  | nil =>
    intro p x y _ h
    cases h
    rfl
  | cons t L ih =>
    intro p x y hdiv h
    rw [runSteps_cons] at h
    rcases Option.bind_eq_some.mp h with ⟨x1, h1, h2⟩
    exact (ih (fun u hu => hdiv u (List.mem_cons_of_mem t hu)) h2).trans
      (runStep_frame (hdiv t (List.mem_cons_self t L)) h1)

theorem runSteps_fix_frame :
    ∀ {L : List SortStep} {s : SortStep} {x y : Json},
      (∀ t ∈ L, Diverge s.path t.path) → runStep s x = some x →
      runSteps L x = some y → runStep s y = some y := by
  intro L
  induction L with
  | nil =>
    intro s x y _ hfx h
    cases h
    exact hfx
  | cons t L ih =>
    intro s x y hdiv hfx h
    rw [runSteps_cons] at h
    rcases Option.bind_eq_some.mp h with ⟨x1, h1, h2⟩
    exact ih (fun u hu => hdiv u (List.mem_cons_of_mem t hu))
      (runStep_fix_frame (hdiv t (List.mem_cons_self t L)) hfx h1) h2

theorem runSteps_fix :
    ∀ {L : List SortStep} {x y : Json},
      List.Pairwise (fun s t => Diverge s.path t.path) L →
      runSteps L x = some y → runSteps L y = some y := by
  intro L
  induction L with
  | nil =>
    intro x y _ h
    cases h
    rfl
  | cons s L ih =>
    intro x y hpw h
    rw [runSteps_cons] at h ⊢
    rcases Option.bind_eq_some.mp h with ⟨x1, h1, h2⟩
    have hfx1 : runStep s x1 = some x1 := runStep_fix h1
    have hfy : runStep s y = some y :=
      runSteps_fix_frame (fun t ht => List.rel_of_pairwise_cons hpw ht) hfx1 h2
    rw [hfy, Option.some_bind]
    exact ih (List.Pairwise.of_cons hpw) h2

theorem runSteps_path_result :
    ∀ {L : List SortStep} {x y : Json},
      List.Pairwise (fun s t => Diverge s.path t.path) L →
      runSteps L x = some y → ∀ s ∈ L,
      (pathLookup s.path x = none ∧ pathLookup s.path y = none) ∨
      (∃ xs ys, pathLookup s.path x = some (.arr xs) ∧
        pathLookup s.path y = some (.arr ys) ∧ ys.Perm xs ∧
        List.Pairwise (keyLe s.key) ys) := by
  intro L
  induction L with
  | nil =>
    intro x y _ _ s hs
    exact absurd hs (List.not_mem_nil s)
  | cons t L ih =>
    intro x y hpw h s hs
    rw [runSteps_cons] at h
    rcases Option.bind_eq_some.mp h with ⟨x1, h1, h2⟩
    rcases List.mem_cons.mp hs with rfl | hs2
    · have h1a : updAtPath (sortJ s.key) s.skipEmpty s.path x = some x1 := h1
      have hframe : pathLookup s.path y = pathLookup s.path x1 :=
        runSteps_frame (fun u hu => List.rel_of_pairwise_cons hpw hu) h2
      rcases updAtPath_pathLookup h1a with ⟨hd, he⟩ | ⟨xs, hd, he, hxs⟩ |
        ⟨xs, ys, hd, hf, he⟩
      · exact .inl ⟨hd, hframe.trans he⟩
      · subst hxs
        exact .inr ⟨[], [], hd, hframe.trans he, List.Perm.refl [],
          List.Pairwise.nil⟩
      · exact .inr ⟨xs, ys, hd, hframe.trans he, sortJ_perm hf,
          sortJ_pairwise hf⟩
    · have hframe : pathLookup s.path x1 = pathLookup s.path x :=
        runStep_frame (Diverge.symm (List.rel_of_pairwise_cons hpw hs2)) h1
      have hres := ih (List.Pairwise.of_cons hpw) h2 s hs2
      rw [hframe] at hres
      exact hres

/-- The seven paths of the sort-key table pairwise part ways, so the seven
steps do not interfere with one another. -/
theorem sortSteps_pairwise :
    List.Pairwise (fun s t => Diverge s.path t.path) sortSteps := by
  decide

theorem sortedAt_arr {key : Json → Option String} {p : List String} {d : Json}
    {xs : List Json} (h : pathLookup p d = some (.arr xs)) :
    sortedAt key p d ↔ List.Pairwise (keyLe key) xs := by
  unfold sortedAt
  rw [h]

theorem sortedAt_not_arr {key : Json → Option String} {p : List String}
    {d : Json} (h : ∀ xs, pathLookup p d ≠ some (.arr xs)) :
    sortedAt key p d := by
  unfold sortedAt
  split
  case h_1 xs heq => exact absurd heq (h xs)
  case h_2 => trivial

theorem sortedAt_congr {key : Json → Option String} {p : List String}
    {d e : Json} (h : pathLookup p e = pathLookup p d) :
    sortedAt key p d → sortedAt key p e := by
  unfold sortedAt
  rw [h]
  exact id

theorem filterTables_eq :
    ∀ {tid : String} {xs ys : List Json}, filterTables tid xs = some ys →
      ys = xs.filter fun t => !(matchesIdent tid t) := by
  intro tid xs
  induction xs with
  | nil =>
    intro ys h
    cases h
    rfl
  | cons t ts ih =>
    intro ys h
    simp only [filterTables] at h
    cases hi : tableIdent t with
    | none => simp [hi] at h
    | some v =>
      simp only [hi] at h
      rcases Option.map_eq_some'.mp h with ⟨zs, hzs, rfl⟩
      rw [ih hzs, List.filter_cons]
      simp only [matchesIdent, hi]
      cases hm : jsonEqStr v tid <;> simp [hm]

theorem filterTables_defined :
    ∀ {tid : String} {xs : List Json}, (∀ t ∈ xs, (tableIdent t).isSome) →
      filterTables tid xs =
        some (xs.filter fun t => !(matchesIdent tid t)) := by
  intro tid xs
  induction xs with
  | nil => intro _; rfl
  | cons t ts ih =>
    intro hall
    have ht : (tableIdent t).isSome := hall t (List.mem_cons_self t ts)
    rcases Option.isSome_iff_exists.mp ht with ⟨v, hv⟩
    simp only [filterTables, hv,
      ih fun u hu => hall u (List.mem_cons_of_mem t hu), Option.map_some']
    rw [List.filter_cons]
    simp only [matchesIdent, hv]
    cases hm : jsonEqStr v tid <;> simp [hm]

/-- Every successful `add_data_source` produces the input object with the
(sorted) new tables list installed below `data_sources`, every other
top-level key untouched. -/
theorem add_data_source_shape {tid : String} {d e : Json}
    (h : add_data_source tid d = some e) :
    ∃ fs fs1 dsf1 ys, d = .obj fs ∧
      e = .obj (jset fs1 "data_sources" (.obj (jset dsf1 "tables" (.arr ys)))) ∧
      List.Pairwise (keyLe tableKey) ys ∧
      ∀ a, a ≠ "data_sources" → jlookup fs1 a = jlookup fs a := by
  cases d with
  | obj fs =>
    simp only [add_data_source, setdefault] at h
    cases hds : jlookup fs "data_sources" with
    | none =>
      simp only [hds] at h
      simp only [jlookup] at h
      rcases Option.map_eq_some'.mp h with ⟨ys, hys, rfl⟩
      exact ⟨fs, fs ++ [("data_sources", .obj [])], _, ys, rfl, rfl,
        sortJ_pairwise hys, fun a ha => jlookup_append_ne fs _ (Ne.symm ha)⟩
    | some ds =>
      simp only [hds] at h
      cases ds with
      | obj dsf =>
        cases htb : jlookup dsf "tables" with
        | none =>
          simp only [htb] at h
          rcases Option.map_eq_some'.mp h with ⟨ys, hys, rfl⟩
          exact ⟨fs, fs, dsf ++ [("tables", .arr [])], ys, rfl, rfl,
            sortJ_pairwise hys, fun a _ => rfl⟩
        | some tb =>
          simp only [htb] at h
          cases tb with
          | arr xs =>
            rcases Option.map_eq_some'.mp h with ⟨ys, hys, rfl⟩
            exact ⟨fs, fs, dsf, ys, rfl, rfl, sortJ_pairwise hys,
              fun a _ => rfl⟩
          | null => cases h
          | bool b => cases h
          | num n => cases h
          | str s => cases h
          | obj gs => cases h
      | null => cases h
      | bool b => cases h
      | num n => cases h
      | str s => cases h
      | arr zs => cases h
  | null => cases h
  | bool b => cases h
  | num n => cases h
  | str s => cases h
  | arr xs => cases h

/-- Every successful `remove_data_source` filters the tables list in place
(and touches nothing else).  Success requires `data_sources` to be
present. -/
theorem remove_data_source_shape {tid : String} {d e : Json}
    (h : remove_data_source tid d = some e) :
    ∃ fs dsf ys, d = .obj fs ∧
      jlookup fs "data_sources" = some (.obj dsf) ∧
      e = .obj (jset fs "data_sources" (.obj (jset dsf "tables" (.arr ys)))) ∧
      ((∃ xs, jlookup dsf "tables" = some (.arr xs) ∧
          filterTables tid xs = some ys) ∨
        (jlookup dsf "tables" = none ∧ ys = [])) := by
  cases d with
  | obj fs =>
    simp only [remove_data_source] at h
    cases hds : jlookup fs "data_sources" with
    | none =>
      simp only [hds, Option.getD_none] at h
      simp only [jlookup, Option.getD_none] at h
      rcases Option.bind_eq_some.mp h with ⟨ys, _, h2⟩
      simp at h2
    | some ds =>
      simp only [hds, Option.getD_some] at h
      cases ds with
      | obj dsf =>
        cases htb : jlookup dsf "tables" with
        | none =>
          simp only [htb, Option.getD_none] at h
          rcases Option.bind_eq_some.mp h with ⟨ys, h1, h2⟩
          simp only [filterTables] at h1
          cases h1
          cases h2
          exact ⟨fs, dsf, [], rfl, hds, rfl, .inr ⟨htb, rfl⟩⟩
        | some tb =>
          simp only [htb, Option.getD_some] at h
          cases tb with
          | arr xs =>
            rcases Option.bind_eq_some.mp h with ⟨ys, h1, h2⟩
            cases h2
            exact ⟨fs, dsf, ys, rfl, hds, rfl, .inl ⟨xs, htb, h1⟩⟩
          | null => cases h
          | bool b => cases h
          | num n => cases h
          | str s => cases h
          | obj gs => cases h
      | null => cases h
      | bool b => cases h
      | num n => cases h
      | str s => cases h
      | arr zs => cases h
  | null => cases h
  | bool b => cases h
  | num n => cases h
  | str s => cases h
  | arr xs => cases h

/-- Every successful `replace_all_data_sources` installs a fresh
`data_sources` object holding only the sorted new tables list. -/
theorem replace_all_data_sources_shape {tids : List String} {d e : Json}
    (h : replace_all_data_sources tids d = some e) :
    ∃ fs ys, d = .obj fs ∧
      e = .obj (jset fs "data_sources" (.obj [("tables", .arr ys)])) ∧
      List.Pairwise (keyLe tableKey) ys := by
  cases d with
  | obj fs =>
    simp only [replace_all_data_sources] at h
    rcases Option.map_eq_some'.mp h with ⟨ys, hys, rfl⟩
    exact ⟨fs, ys, rfl, rfl, sortJ_pairwise hys⟩
  | null => cases h
  | bool b => cases h
  | num n => cases h
  | str s => cases h
  | arr xs => cases h

theorem pathLookup_keep {fs fs1 : List (String × Json)}
    (hkeep : ∀ a, a ≠ "data_sources" → jlookup fs1 a = jlookup fs a)
    {a : String} {rest : List String} (ha : a ≠ "data_sources") (w : Json) :
    pathLookup (a :: rest) (.obj (jset fs1 "data_sources" w)) =
      pathLookup (a :: rest) (.obj fs) := by
  simp [pathLookup, jlookup_jset_ne _ _ (Ne.symm ha), hkeep a ha]

theorem pathLookup_tables_set {fs1 dsf1 : List (String × Json)}
    {ys : List Json} :
    pathLookup ["data_sources", "tables"]
      (.obj (jset fs1 "data_sources" (.obj (jset dsf1 "tables" (.arr ys))))) =
      some (.arr ys) := by
  simp [pathLookup, jlookup_jset_self]

theorem sort_serialized_space_SortInv {d e : Json}
    (h : sort_serialized_space d = some e) : SortInv e := by
  intro s hs
  rcases runSteps_path_result sortSteps_pairwise h s hs with ⟨_, hn⟩ |
    ⟨xs, ys, _, hy, _, hp⟩
  · exact sortedAt_not_arr fun xs hx => by rw [hn] at hx; cases hx
  · exact (sortedAt_arr hy).mpr hp

theorem add_data_source_SortInv {tid : String} {d e : Json} (hinv : SortInv d)
    (h : add_data_source tid d = some e) : SortInv e := by
  rcases add_data_source_shape h with ⟨fs, fs1, dsf1, ys, rfl, rfl, hsort, hkeep⟩
  intro s hs
  fin_cases hs
  · exact (sortedAt_arr pathLookup_tables_set).mpr hsort
  · exact sortedAt_congr (pathLookup_keep hkeep (by decide) _)
      (hinv _ (by simp [sortSteps]))
  · exact sortedAt_congr (pathLookup_keep hkeep (by decide) _)
      (hinv _ (by simp [sortSteps]))
  · exact sortedAt_congr (pathLookup_keep hkeep (by decide) _)
      (hinv _ (by simp [sortSteps]))
  · exact sortedAt_congr (pathLookup_keep hkeep (by decide) _)
      (hinv _ (by simp [sortSteps]))
  · exact sortedAt_congr (pathLookup_keep hkeep (by decide) _)
      (hinv _ (by simp [sortSteps]))
  · exact sortedAt_congr (pathLookup_keep hkeep (by decide) _)
      (hinv _ (by simp [sortSteps]))

theorem remove_data_source_SortInv {tid : String} {d e : Json}
    (hinv : SortInv d) (h : remove_data_source tid d = some e) : SortInv e := by
  rcases remove_data_source_shape h with ⟨fs, dsf, ys, rfl, hds, rfl, hcase⟩
  have hsort : List.Pairwise (keyLe tableKey) ys := by
    rcases hcase with ⟨xs, htb, hfil⟩ | ⟨htb, rfl⟩
    · have hx : pathLookup ["data_sources", "tables"] (Json.obj fs) =
          some (.arr xs) := by
        simp [pathLookup, hds, htb]
      have hpx : List.Pairwise (keyLe tableKey) xs :=
        (sortedAt_arr hx).mp
          (hinv ⟨tableKey, false, ["data_sources", "tables"]⟩
            (by simp [sortSteps]))
      rw [filterTables_eq hfil]
      exact hpx.sublist (List.filter_sublist xs)
    · exact List.Pairwise.nil
  intro s hs
  fin_cases hs
  · exact (sortedAt_arr pathLookup_tables_set).mpr hsort
  · exact sortedAt_congr (pathLookup_keep (fun a _ => rfl) (by decide) _)
      (hinv _ (by simp [sortSteps]))
  · exact sortedAt_congr (pathLookup_keep (fun a _ => rfl) (by decide) _)
      (hinv _ (by simp [sortSteps]))
  · exact sortedAt_congr (pathLookup_keep (fun a _ => rfl) (by decide) _)
      (hinv _ (by simp [sortSteps]))
  · exact sortedAt_congr (pathLookup_keep (fun a _ => rfl) (by decide) _)
      (hinv _ (by simp [sortSteps]))
  · exact sortedAt_congr (pathLookup_keep (fun a _ => rfl) (by decide) _)
      (hinv _ (by simp [sortSteps]))
  · exact sortedAt_congr (pathLookup_keep (fun a _ => rfl) (by decide) _)
      (hinv _ (by simp [sortSteps]))

theorem replace_all_data_sources_SortInv {tids : List String} {d e : Json}
    (hinv : SortInv d) (h : replace_all_data_sources tids d = some e) :
    SortInv e := by
  rcases replace_all_data_sources_shape h with ⟨fs, ys, rfl, rfl, hsort⟩
  have htb : pathLookup ["data_sources", "tables"]
      (.obj (jset fs "data_sources" (.obj [("tables", .arr ys)]))) =
      some (.arr ys) := by
    simp [pathLookup, jlookup_jset_self, jlookup]
  intro s hs
  fin_cases hs
  · exact (sortedAt_arr htb).mpr hsort
  · exact sortedAt_congr (pathLookup_keep (fun a _ => rfl) (by decide) _)
      (hinv _ (by simp [sortSteps]))
  · exact sortedAt_congr (pathLookup_keep (fun a _ => rfl) (by decide) _)
      (hinv _ (by simp [sortSteps]))
  · exact sortedAt_congr (pathLookup_keep (fun a _ => rfl) (by decide) _)
      (hinv _ (by simp [sortSteps]))
  · exact sortedAt_congr (pathLookup_keep (fun a _ => rfl) (by decide) _)
      (hinv _ (by simp [sortSteps]))
  · exact sortedAt_congr (pathLookup_keep (fun a _ => rfl) (by decide) _)
      (hinv _ (by simp [sortSteps]))
  · exact sortedAt_congr (pathLookup_keep (fun a _ => rfl) (by decide) _)
      (hinv _ (by simp [sortSteps]))

theorem hexDigitsRev_length : ∀ (k n : Nat), (hexDigitsRev k n).length = k
  | 0, _ => rfl
  | k + 1, n => by simp [hexDigitsRev, hexDigitsRev_length k]

theorem hexDigitsRev_lt : ∀ (k n : Nat), ∀ d ∈ hexDigitsRev k n, d < 16
  | 0, _, d, hd => absurd hd (List.not_mem_nil d)
  | k + 1, n, d, hd => by
    rcases List.mem_cons.mp hd with rfl | hd2
    · exact Nat.mod_lt n (by omega)
    · exact hexDigitsRev_lt k (n / 16) d hd2

theorem hexDigitsRev_inj : ∀ (k n m : Nat), n < 16 ^ k → m < 16 ^ k →
    hexDigitsRev k n = hexDigitsRev k m → n = m
  | 0, n, m, hn, hm, _ => by
    simp [pow_zero] at hn hm
    omega
  | k + 1, n, m, hn, hm, h => by
    simp only [hexDigitsRev, List.cons.injEq] at h
    have hdiv : n / 16 = m / 16 :=
      hexDigitsRev_inj k (n / 16) (m / 16)
        (by rw [pow_succ] at hn; omega)
        (by rw [pow_succ] at hm; omega) h.2
    have hmod := h.1
    omega

theorem hexChar_inj : ∀ d < 16, ∀ e < 16, hexChar d = hexChar e → d = e := by
  decide

theorem hexChar_mem : ∀ d < 16, hexChar d ∈ hexAlphabet := by
  decide

theorem map_hexChar_inj :
    ∀ {as bs : List Nat}, (∀ a ∈ as, a < 16) → (∀ b ∈ bs, b < 16) →
      as.map hexChar = bs.map hexChar → as = bs
  | [], [], _, _, _ => rfl
  | [], _ :: _, _, _, h => by simp at h
  | _ :: _, [], _, _, h => by simp at h
  | a :: as, b :: bs, ha, hb, h => by
    simp only [List.map_cons, List.cons.injEq] at h
    have h1 : a = b :=
      hexChar_inj a (ha a (List.mem_cons_self a as))
        b (hb b (List.mem_cons_self b bs)) h.1
    have h2 : as = bs :=
      map_hexChar_inj (fun x hx => ha x (List.mem_cons_of_mem a hx))
        (fun x hx => hb x (List.mem_cons_of_mem b hx)) h.2
    rw [h1, h2]

theorem hex32_inj {n m : Nat} (hn : n < 2 ^ 128) (hm : m < 2 ^ 128)
    (h : hex32 n = hex32 m) : n = m := by
  have hpow : (16 : Nat) ^ 32 = 2 ^ 128 := by norm_num
  have hdata : ((hexDigitsRev 32 n).reverse).map hexChar =
      ((hexDigitsRev 32 m).reverse).map hexChar := by
    have := congrArg String.data h
    simpa [hex32] using this
  have hrev : (hexDigitsRev 32 n).reverse = (hexDigitsRev 32 m).reverse :=
    map_hexChar_inj
      (fun a ha => hexDigitsRev_lt 32 n a (List.mem_reverse.mp ha))
      (fun b hb => hexDigitsRev_lt 32 m b (List.mem_reverse.mp hb)) hdata
  exact hexDigitsRev_inj 32 n m (hpow ▸ hn) (hpow ▸ hm)
    (List.reverse_injective hrev)

theorem uuid4int_eq_self {r : Nat} (h : vvOk r) : uuid4int r = r := by
  obtain ⟨h1, h2⟩ := h
  unfold uuid4int
  omega

theorem uuid4int_lt {r : Nat} (h : r < 2 ^ 128) : uuid4int r < 2 ^ 128 := by
  unfold uuid4int
  omega

theorem vvOk_uuid4int (r : Nat) : vvOk (uuid4int r) := by
  unfold uuid4int vvOk
  omega

theorem hex32_length (n : Nat) : (hex32 n).length = 32 := by
  simp [hex32, String.length, hexDigitsRev_length]

theorem hex32_chars (n : Nat) : ∀ c ∈ (hex32 n).data, c ∈ hexAlphabet := by
  intro c hc
  simp only [hex32, List.mem_map] at hc
  rcases hc with ⟨d, hd, rfl⟩
  exact hexChar_mem d (hexDigitsRev_lt 32 n d (List.mem_reverse.mp hd))

/-- C1 (corrected; counterexample `genie_c1_counterexample`): after
`sort_serialized_space` every list named in the sort-key table that is
present in the result is non-decreasing under its declared key,
unconditionally; after `add_data_source`, `remove_data_source` or
`replace_all_data_sources` the same holds provided every such list already
satisfied it in the input document (the original unconditional claim fails
because these three operations re-sort only the tables list —
`remove_data_source` re-sorts nothing at all). -/
theorem genie_c1 (d e : Json) (tid : String) (tids : List String) :
    (sort_serialized_space d = some e → SortInv e) ∧
    (SortInv d → add_data_source tid d = some e → SortInv e) ∧
    (SortInv d → remove_data_source tid d = some e → SortInv e) ∧
    (SortInv d → replace_all_data_sources tids d = some e → SortInv e) :=
  ⟨sort_serialized_space_SortInv,
   fun hinv h => add_data_source_SortInv hinv h,
   fun hinv h => remove_data_source_SortInv hinv h,
   fun hinv h => replace_all_data_sources_SortInv hinv h⟩

/-- C1, counterexample to the claim as stated: a removal that matches
nothing submits the document unchanged, so an input whose tables list is
out of order yields a result violating the sort invariant. -/
theorem genie_c1_counterexample :
    remove_data_source "zzz" docBA = some docBA ∧ ¬ SortInv docBA :=
  ⟨by rfl, by decide⟩

/-- C1, witness: removing `"b"` from a document satisfying the invariant
yields a document satisfying the invariant. -/
theorem genie_c1_witness :
    SortInv (.obj [("data_sources", .obj [("tables",
      .arr [newTable "a"])])]) :=
  (genie_c1 docAB _ "b" []).2.2.1 (by decide) (by rfl)

/-- C2: `normalize` is idempotent — whenever `sort_serialized_space` is
defined on a document, applying it to its own result returns that result
unchanged, i.e. `sort_serialized_space (sort_serialized_space d) =
sort_serialized_space d` on the domain of definition. -/
theorem genie_c2 (d e : Json) (h : sort_serialized_space d = some e) :
    sort_serialized_space e = some e :=
  runSteps_fix sortSteps_pairwise h

/-- C2, witness at a concrete document. -/
theorem genie_c2_witness : sort_serialized_space docAB = some docAB :=
  genie_c2 docBA docAB (by rfl)

/-- C3 (corrected; counterexample `genie_c3_counterexample`): for every
fetched document whose `data_sources` member is an object with a `tables`
list all of whose entries carry an `identifier` member, the submitted
tables list equals the input list with exactly the entries whose
identifier equals `tid` removed (all occurrences, including duplicates),
the remaining entries unchanged and in their original relative order, the
rest of the document untouched; and when no entry matches, the submitted
document equals the input document exactly.  (The original claim's "for
every fetched document" fails: on a document without `data_sources` the
removal is an error, not a no-op — see C8.) -/
theorem genie_c3 (fs dsf : List (String × Json)) (xs : List Json)
    (tid : String) (hds : jlookup fs "data_sources" = some (.obj dsf))
    (htb : jlookup dsf "tables" = some (.arr xs))
    (hall : ∀ t ∈ xs, (tableIdent t).isSome) :
    remove_data_source tid (.obj fs) =
      some (.obj (jset fs "data_sources" (.obj (jset dsf "tables"
        (.arr (xs.filter fun t => !(matchesIdent tid t))))))) ∧
    ((∀ t ∈ xs, matchesIdent tid t = false) →
      remove_data_source tid (.obj fs) = some (.obj fs)) := by
  have hrun : remove_data_source tid (.obj fs) =
      some (.obj (jset fs "data_sources" (.obj (jset dsf "tables"
        (.arr (xs.filter fun t => !(matchesIdent tid t))))))) := by
    simp only [remove_data_source, hds, Option.getD_some, htb,
      filterTables_defined hall, Option.some_bind]
  refine ⟨hrun, fun hnone => ?_⟩
  have hfil : (xs.filter fun t => !(matchesIdent tid t)) = xs :=
    List.filter_eq_self.mpr fun t ht => by simp [hnone t ht]
  rw [hrun, hfil, jset_of_jlookup htb, jset_of_jlookup hds]

/-- C3, counterexample to the claim as stated: on the empty document no
entry matches `"x"`, yet `remove_data_source` raises a `KeyError` (`none`)
instead of returning the document — while `normalize` of that document is
the document itself. -/
theorem genie_c3_counterexample :
    remove_data_source "x" (Json.obj []) = none ∧
      sort_serialized_space (Json.obj []) = some (Json.obj []) :=
  ⟨by rfl, by rfl⟩

/-- C3, witness: a matching removal filters the list; a non-matching
removal returns the document unchanged. -/
theorem genie_c3_witness :
    remove_data_source "b" docAB =
      some (.obj [("data_sources", .obj [("tables",
        .arr [newTable "a"])])]) ∧
    remove_data_source "zzz" docAB = some docAB := by
  constructor
  · exact (genie_c3 [("data_sources", .obj [("tables",
      .arr [newTable "a", newTable "b"])])]
      [("tables", .arr [newTable "a", newTable "b"])]
      [newTable "a", newTable "b"] "b" rfl rfl (by decide)).1
  · exact (genie_c3 [("data_sources", .obj [("tables",
      .arr [newTable "a", newTable "b"])])]
      [("tables", .arr [newTable "a", newTable "b"])]
      [newTable "a", newTable "b"] "zzz" rfl rfl (by decide)).2 (by decide)

/-- C4: `add_data_source` submits the input tables list plus the single
new entry `{identifier: tid}`, re-sorted ascending by identifier (the
submitted list is a permutation of input-plus-entry and is
non-decreasing); and, for the id-keyed scenario, a measures list appended
in the order `b` then `a` normalizes to the order `a`, `b`. -/
theorem genie_c4 :
    (∀ (fs dsf : List (String × Json)) (xs : List Json) (tid : String),
      jlookup fs "data_sources" = some (.obj dsf) →
      jlookup dsf "tables" = some (.arr xs) →
      (∀ t ∈ xs, (tableKey t).isSome) →
      ∃ e ys, add_data_source tid (.obj fs) = some e ∧
        pathLookup ["data_sources", "tables"] e = some (.arr ys) ∧
        ys.Perm (xs ++ [newTable tid]) ∧
        List.Pairwise (keyLe tableKey) ys) ∧
    sort_serialized_space docMeasBA = some docMeasAB := by
  constructor
  · intro fs dsf xs tid hds htb hall
    have hall2 : (xs ++ [newTable tid]).all fun t => (tableKey t).isSome := by
      rw [List.all_eq_true]
      intro t ht
      rcases List.mem_append.mp ht with ht1 | ht2
      · simpa using hall t ht1
      · rw [List.mem_singleton.mp ht2]
        rfl
    have hsort : sortTables (xs ++ [newTable tid]) =
        some (List.insertionSort (keyLe tableKey) (xs ++ [newTable tid])) :=
      sortJ_of_all hall2
    refine ⟨.obj (jset fs "data_sources" (.obj (jset dsf "tables"
        (.arr (List.insertionSort (keyLe tableKey) (xs ++ [newTable tid])))))),
      List.insertionSort (keyLe tableKey) (xs ++ [newTable tid]), ?_,
      pathLookup_tables_set, List.perm_insertionSort _ _,
      List.sorted_insertionSort _ _⟩
    simp only [add_data_source, setdefault, hds, htb, hsort, Option.map_some']
  · rfl

/-- C4, witness: adding `"c"` to a two-table document. -/
theorem genie_c4_witness :
    ∃ e ys, add_data_source "c" docAB = some e ∧
      pathLookup ["data_sources", "tables"] e = some (.arr ys) ∧
      ys.Perm ([newTable "a", newTable "b"] ++ [newTable "c"]) ∧
      List.Pairwise (keyLe tableKey) ys :=
  genie_c4.1 [("data_sources", .obj [("tables",
      .arr [newTable "a", newTable "b"])])]
    [("tables", .arr [newTable "a", newTable "b"])]
    [newTable "a", newTable "b"] "c" rfl rfl (by decide)

/-- C5: `sort_serialized_space` touches only the seven recognized lists:
the value at every key path that parts ways with each of the seven
sort-key paths (for example `version`, `data_sources.metric_views`,
`config` members other than `sample_questions`) is identical before and
after normalization.  (Branches nested inside entries of the sorted lists
— such as `column_configs` inside a table entry or the `content` array of
a text instruction — ride along with their entries, which C10 shows are
carried over unchanged as a permutation.) -/
theorem genie_c5 (d e : Json) (p : List String)
    (h : sort_serialized_space d = some e)
    (hdiv : ∀ s ∈ sortSteps, Diverge p s.path) :
    pathLookup p e = pathLookup p d :=
  runSteps_frame hdiv h

/-- C5, witness: the `metric_views` branch is untouched while the sibling
tables list gets sorted. -/
theorem genie_c5_witness :
    pathLookup ["data_sources", "metric_views"] docV2 =
      pathLookup ["data_sources", "metric_views"] docV :=
  genie_c5 docV docV2 ["data_sources", "metric_views"] (by rfl) (by decide)

/-- C6: the protocol surfaces the five error kinds distinctly and performs
no silent recovery.  (1) A failed fetch propagates its error to the caller
unmodified; (2) a failed submit likewise; (3) each of the five kinds is
reachable as a distinct surfaced error (`TransportError` as the connection
failure, the others as the HTTP statuses 404/401/400/409); (4) the kind is
a function of the surfaced error, so two failures of different kinds are
observably distinct. -/
theorem genie_c6 :
    (∀ (t : Json → Option Json) (fe se : TransportOutcome) (e : SurfacedError),
      api_request fe = .error e → mergePipeline t fe se = some (.error e)) ∧
    (∀ (t : Json → Option Json) (fe se : TransportOutcome) (cfg cfg' : Json)
      (e : SurfacedError), api_request fe = .ok cfg → t cfg = some cfg' →
      api_request se = .error e → mergePipeline t fe se = some (.error e)) ∧
    (∀ k : ErrorKind, ∃ (o : TransportOutcome) (e : SurfacedError),
      api_request o = .error e ∧ errorKind e = some k) ∧
    (∀ (e1 e2 : SurfacedError) (k1 k2 : ErrorKind), errorKind e1 = some k1 →
      errorKind e2 = some k2 → k1 ≠ k2 → e1 ≠ e2) := by
  refine ⟨?_, ?_, ?_, ?_⟩
  · intro t fe se e h
    simp [mergePipeline, h]
  · intro t fe se cfg cfg' e h1 h2 h3
    simp [mergePipeline, h1, h2, h3]
  · intro k
    cases k with
    | notFound => exact ⟨.response 404 .null, .httpError 404, by rfl, by rfl⟩
    | unauthorized =>
      exact ⟨.response 401 .null, .httpError 401, by rfl, by rfl⟩
    | validationError =>
      exact ⟨.response 400 .null, .httpError 400, by rfl, by rfl⟩
    | conflict => exact ⟨.response 409 .null, .httpError 409, by rfl, by rfl⟩
    | transportError =>
      exact ⟨.failure, .connectionError, by rfl, by rfl⟩
  · intro e1 e2 k1 k2 h1 h2 hne heq
    rw [heq, h2] at h1
    exact hne (Option.some.inj h1).symm

/-- C6, witness: a transport failure on the fetch of the removal pipeline
comes back to the caller as exactly that failure. -/
theorem genie_c6_witness :
    mergePipeline (remove_data_source "x") .failure .failure =
      some (.error .connectionError) :=
  genie_c6.1 (remove_data_source "x") .failure .failure .connectionError
    (by rfl)

/-- C8: `remove_data_source` on a fetched config without a `data_sources`
key raises (`KeyError`) instead of treating the tables list as empty and
leaving the document unchanged: the comprehension's source defaults the
missing branch via `.get`, but the assignment target
`config["data_sources"]["tables"]` indexes `"data_sources"`
unconditionally. -/
theorem genie_c8 (fs : List (String × Json)) (tid : String)
    (hds : jlookup fs "data_sources" = none) :
    remove_data_source tid (.obj fs) = none := by
  simp [remove_data_source, hds, jlookup, filterTables]

/-- C8, witness: a document with only a `version` field. -/
theorem genie_c8_witness :
    remove_data_source "x" (.obj [("version", .num 2)]) = none :=
  genie_c8 [("version", .num 2)] "x" (by rfl)

/-- C7 (corrected; counterexample `genie_c7_counterexample`): every
identifier `gen_id` returns is a 32-character string over the lowercase
hexadecimal alphabet, and generation is a pure function of the 128 random
bits the call draws — but the identifier carries 122 bits of randomness,
not 128: `uuid4` forces the four version bits to `0100` and two variant
bits to `10`, and `gen_id` is injective exactly on inputs whose forced
fields already hold those values (a set of size 2^122). -/
theorem genie_c7 (r : Nat) (hr : r < 2 ^ 128) :
    (gen_id r).length = 32 ∧
    (∀ c ∈ (gen_id r).data, c ∈ hexAlphabet) ∧
    (∀ r2, r2 < 2 ^ 128 → vvOk r → vvOk r2 →
      (gen_id r = gen_id r2 ↔ r = r2)) := by
  refine ⟨hex32_length _, hex32_chars _, ?_⟩
  intro r2 hr2 hv hv2
  constructor
  · intro h
    unfold gen_id at h
    rw [uuid4int_eq_self hv, uuid4int_eq_self hv2] at h
    exact hex32_inj hr hr2 h
  · intro h
    rw [h]

/-- C7, counterexample to the claim as stated: two distinct 128-bit random
draws (differing in a version bit and a variant bit) produce the same
identifier, so the identifier does not carry 128 bits of randomness. -/
theorem genie_c7_counterexample :
    gen_id 0 = gen_id 302240678275694148452352 ∧
      (0 : Nat) ≠ 302240678275694148452352 ∧
      302240678275694148452352 < 2 ^ 128 :=
  ⟨by rfl, by decide, by decide⟩

/-- C7, witness: a well-formed draw yields a 32-character identifier, and
two draws that differ outside the forced fields yield distinct
identifiers. -/
theorem genie_c7_witness :
    (gen_id 302240678275694148452352).length = 32 ∧
      gen_id 302240678275694148452352 ≠ gen_id 302240678275694148452353 := by
  have h := genie_c7 302240678275694148452352 (by decide)
  refine ⟨h.1, fun heq => ?_⟩
  have h2 := (h.2.2 302240678275694148452353 (by decide) (by decide)
    (by decide)).mp heq
  exact absurd h2 (by decide)

/-- C9: `sort_serialized_space` tolerates id-keyed entries without an
`id` member — every such list with object entries whose `id`, if present,
is a string sorts successfully, a missing `id` counting as the empty
string, which places the entry before every entry with a nonempty id (the
concrete second conjunct) — but it is partial on `data_sources.tables`:
any table entry lacking the `identifier` key makes the whole normalization
raise a `KeyError` (`none`). -/
theorem genie_c9 :
    (∀ xs : List Json, (∀ x ∈ xs, (idKey x).isSome) →
      ∃ ys, sortById xs = some ys ∧ ys.Perm xs ∧
        List.Pairwise (keyLe idKey) ys) ∧
    sortById [Json.obj [("id", Json.str "a")], Json.obj []] =
      some [Json.obj [], Json.obj [("id", Json.str "a")]] ∧
    (∀ (fs dsf : List (String × Json)) (xs : List Json),
      jlookup fs "data_sources" = some (.obj dsf) →
      jlookup dsf "tables" = some (.arr xs) →
      (∃ t ∈ xs, ∃ tf, t = Json.obj tf ∧ jlookup tf "identifier" = none) →
      sort_serialized_space (.obj fs) = none) := by
  refine ⟨?_, by rfl, ?_⟩
  · intro xs hall
    exact ⟨_, sortJ_of_all (List.all_eq_true.mpr hall),
      List.perm_insertionSort _ _, List.sorted_insertionSort _ _⟩
  · rintro fs dsf xs hds htb ⟨t, ht, tf, rfl, hid⟩
    have hnone : sortJ tableKey xs = none := by
      unfold sortJ
      rw [if_neg]
      intro hall
      rw [List.all_eq_true] at hall
      have := hall _ ht
      simp [tableKey, hid] at this
    have hfail : runStep ⟨tableKey, false, ["data_sources", "tables"]⟩
        (Json.obj fs) = none := by
      simp [runStep, updAtPath, hds, htb, hnone]
    show runSteps sortSteps (Json.obj fs) = none
    rw [show sortSteps = ⟨tableKey, false, ["data_sources", "tables"]⟩ ::
      sortSteps.tail from rfl, runSteps_cons, hfail]
    rfl

/-- C9, witness: a measures list whose entries carry string ids sorts, and
a document whose single table entry lacks `identifier` makes normalization
raise. -/
theorem genie_c9_witness :
    (∃ ys, sortById [Json.obj [("id", Json.str "b")],
        Json.obj [("id", Json.str "a")]] = some ys ∧
      ys.Perm [Json.obj [("id", Json.str "b")],
        Json.obj [("id", Json.str "a")]] ∧
      List.Pairwise (keyLe idKey) ys) ∧
    sort_serialized_space (.obj [("data_sources", .obj [("tables",
      .arr [Json.obj [("name", .str "t")]])])]) = none := by
  constructor
  · exact genie_c9.1 _ (by decide)
  · exact genie_c9.2.2 [("data_sources", .obj [("tables",
        .arr [Json.obj [("name", .str "t")]])])]
      [("tables", .arr [Json.obj [("name", .str "t")]])]
      [Json.obj [("name", .str "t")]] rfl rfl
      ⟨Json.obj [("name", .str "t")], by simp, [("name", .str "t")], rfl, rfl⟩

/-- C10: whenever `sort_serialized_space` is defined, each of the seven
recognized lists in the result is a permutation of the corresponding input
list — no entry is added, dropped, deduplicated or modified, so each
list's length and multiset of entries is preserved. -/
theorem genie_c10 (d e : Json) (h : sort_serialized_space d = some e) :
    ∀ s ∈ sortSteps, ∀ xs, pathLookup s.path d = some (.arr xs) →
      ∃ ys, pathLookup s.path e = some (.arr ys) ∧ ys.Perm xs := by
  intro s hs xs hx
  rcases runSteps_path_result sortSteps_pairwise h s hs with ⟨hn, _⟩ |
    ⟨xs0, ys, hd, hy, hperm, _⟩
  · rw [hx] at hn
    cases hn
  · rw [hx] at hd
    injection hd with hd1
    injection hd1 with hd2
    exact ⟨ys, hy, hd2 ▸ hperm⟩

/-- C10, witness: normalizing the unsorted two-table document permutes its
tables list. -/
theorem genie_c10_witness :
    ∃ ys, pathLookup ["data_sources", "tables"] docAB = some (.arr ys) ∧
      ys.Perm [newTable "b", newTable "a"] :=
  genie_c10 docBA docAB (by rfl)
    ⟨tableKey, false, ["data_sources", "tables"]⟩ (by simp [sortSteps])
    [newTable "b", newTable "a"] (by rfl)
